import Mathlib

/-!
Shallow embedding of `crates/sol-macro/src/expand/contract.rs`: the expansion
of a contract item into selector-routed dispatch enums (`{Name}Calls`,
`{Name}Errors`, `{Name}Events`) together with the generated `SolInterface`
implementation, variant conversions and variant accessor methods.

The proc macro emits Rust code; here we embed the *runtime semantics* of that
generated code.  A member of a group is described by its selector bytes, its
payload decoder (the delegated `<T as SolCall/SolError>::decode_raw`) and its
statically computed minimum payload size (`ty::params_base_data_size`).
Payloads of all variants are drawn from a single type parameter `P` (a sum
type in an instantiation); a value of the generated enum is the pair of a
variant index and its payload.
-/

namespace ContractExpand

/-- Embedding of `alloy_sol_types::Error` as far as this module observes it:
`Error::unknown_selector(name, s)` plus the (opaque to this module) errors a
delegated payload decoder may produce. -/
inductive SolError where
  | unknownSelector (name : String) (selector : List Nat)
  | decodeError (msg : String)
deriving DecidableEq

/-- One member of a call/error/event group: its selector byte sequence
(4 bytes for calls/errors, 32 for events), the payload type's delegated
`decode_raw`, and its minimum static payload size. -/
structure Member (P : Type) where
  selector : List Nat
  decodeRaw : List Nat → Bool → Except SolError P
  minSize : Nat

/-- A value of the generated enum: the active variant (by its position in the
member list, i.e. declaration order) together with its payload. -/
structure UnionVal (P : Type) where
  idx : Nat
  payload : P
deriving DecidableEq

variable {P : Type}

/-- The generated `SELECTORS` constant: the members' selectors sorted
ascending by byte-wise (lexicographic) comparison, as done by
`selectors.sort_unstable_by_key(|a| a.array)` in `from_functions` /
`from_errors` / `from_events`. -/
def SELECTORS (ms : List (Member P)) : List (List Nat) :=
  List.insertionSort (· ≤ ·) (ms.map fun m => m.selector)

/-- The generated `COUNT` constant: the number of variants. -/
def COUNT (ms : List (Member P)) : Nat :=
  ms.length

/-- The generated `MIN_DATA_LENGTH` constant.  The Rust constructor computes
`members.iter().map(params_base_data_size).min().unwrap()`; the panic of
`unwrap` on an empty list is modelled as `none`. -/
def MIN_DATA_LENGTH (ms : List (Member P)) : Option Nat :=
  (ms.map fun m => m.minSize).min?

/-- The generated `selector_at`: `Self::SELECTORS.get(i).copied()`. -/
def selector_at (ms : List (Member P)) (i : Nat) : Option (List Nat) :=
  (SELECTORS ms).get? i

/-- The generated `type_check`: a match whose arms are all members' selector
constants (`SEL1 | SEL2 | ... => Ok(())`), with a final arm producing
`Error::unknown_selector(Self::NAME, s)`. -/
def type_check (name : String) (ms : List (Member P)) (s : List Nat) :
    Except SolError Unit :=
  if s ∈ ms.map (fun m => m.selector) then Except.ok ()
  else Except.error (SolError.unknownSelector name s)

/-- Helper for `decode_raw`: the generated match tries the arms in member
declaration order (first matching selector constant wins) with the running
variant index `i`. -/
def decodeRawFrom (name : String) (s bytes : List Nat) (validate : Bool) :
    Nat → List (Member P) → Except SolError (UnionVal P)
  | _, [] => Except.error (SolError.unknownSelector name s)
  | i, m :: rest =>
    if m.selector = s then
      (m.decodeRaw bytes validate).map fun p => UnionVal.mk i p
    else
      decodeRawFrom name s bytes validate (i + 1) rest

/-- The generated `decode_raw(selector, data, validate)`: one match arm per
member delegating to `<T as Trait>::decode_raw(data, validate)` and wrapping
the result with `.map(Self::variant)`, and a final arm producing
`Error::unknown_selector(Self::NAME, s)`. -/
def decode_raw (name : String) (ms : List (Member P)) (s bytes : List Nat)
    (validate : Bool) : Except SolError (UnionVal P) :=
  decodeRawFrom name s bytes validate 0 ms

/-- `impl From<Payload> for Enum`: `Self::variant(value)`. -/
def fromPayload (i : Nat) (p : P) : UnionVal P :=
  UnionVal.mk i p

/-- `impl TryFrom<Enum> for Payload`: returns the payload when the active
variant matches, otherwise the original enum value as the error. -/
def tryFromUnion (i : Nat) (u : UnionVal P) : Except (UnionVal P) P :=
  if u.idx = i then Except.ok u.payload else Except.error u

/-- The generated `is_<variant>` method: `matches!(self, Self::variant(_))`. -/
def is_variant (i : Nat) (u : UnionVal P) : Bool :=
  decide (u.idx = i)

/-- The generated `as_<variant>` method: `Some(inner)` on a match, else
`None`. -/
def as_variant (i : Nat) (u : UnionVal P) : Option P :=
  if u.idx = i then some u.payload else none

/-- The generated `as_<variant>_mut` method (same selection logic as
`as_<variant>`; mutability is not observable in this pure embedding). -/
def as_variant_mut (i : Nat) (u : UnionVal P) : Option P :=
  if u.idx = i then some u.payload else none

/-- The generated `try_into_<variant>` method: `Ok(inner)` on a match, else
`Err(self)` with the value unchanged. -/
def try_into_variant (i : Nat) (u : UnionVal P) : Except (UnionVal P) P :=
  if u.idx = i then Except.ok u.payload else Except.error u

/-- The data of a generated enum definition (`generate_enum`): the variant
list in declaration order and the `SELECTORS` table. -/
structure EnumDef (P : Type) where
  variants : List (Member P)
  selTable : List (List Nat)

/-- The data of a generated `SolInterface` implementation. -/
structure InterfaceImpl (P : Type) where
  NAME : String
  MIN_DATA_LENGTH : Nat
  COUNT : Nat
  type_check : List Nat → Except SolError Unit
  decode_raw : List Nat → List Nat → Bool → Except SolError (UnionVal P)
  selector_at : Nat → Option (List Nat)

/-- What is emitted for one group: calls/errors get the enum plus the
dispatch contract (`expand`), events get only the enum (`expand_event`). -/
inductive GroupOutput (P : Type) where
  | full (e : EnumDef P) (impl : InterfaceImpl P)
  | enumOnly (e : EnumDef P)

/-- Whether a group output carries a dispatch contract. -/
def hasDispatch : GroupOutput P → Bool
  | GroupOutput.full _ _ => true
  | GroupOutput.enumOnly _ => false

/-- `generate_enum`: the enum definition with its `SELECTORS` constant. -/
def generateEnum (ms : List (Member P)) : EnumDef P :=
  EnumDef.mk ms (SELECTORS ms)

/-- The `CallLikeExpander` constructor plus `expand`: builds the
`SolInterface` impl data.  `min().unwrap()` is modelled as `Option.map`
over `MIN_DATA_LENGTH`. -/
def fromMembers (name : String) (ms : List (Member P)) :
    Option (InterfaceImpl P) :=
  (MIN_DATA_LENGTH ms).map fun mdl =>
    InterfaceImpl.mk name mdl (COUNT ms) (type_check name ms)
      (decode_raw name ms) (selector_at ms)

/-- One item of a contract body, as classified by the `for item in body`
loop of `expand`. -/
inductive Item (P : Type) where
  | function (m : Member P)
  | error (m : Member P)
  | event (m : Member P)
  | other

/-- The functions collected from a contract body, in declaration order. -/
def itemFunctions (body : List (Item P)) : List (Member P) :=
  body.filterMap fun it =>
    match it with
    | Item.function m => some m
    | _ => none

/-- The errors collected from a contract body, in declaration order. -/
def itemErrors (body : List (Item P)) : List (Member P) :=
  body.filterMap fun it =>
    match it with
    | Item.error m => some m
    | _ => none

/-- The events collected from a contract body, in declaration order. -/
def itemEvents (body : List (Item P)) : List (Member P) :=
  body.filterMap fun it =>
    match it with
    | Item.event m => some m
    | _ => none

/-- `(list.len() > 1).then(|| CallLikeExpander::from_*(..).expand(..))`:
calls/errors groups are built, with the full dispatch contract, only for
more than one member. -/
def expandGroup (name : String) (ms : List (Member P)) :
    Option (GroupOutput P) :=
  if 1 < ms.length then
    (fromMembers name ms).map fun impl => GroupOutput.full (generateEnum ms) impl
  else none

/-- `(events.len() > 1).then(|| CallLikeExpander::from_events(..).expand_event(..))`:
`expand_event` only emits `generate_enum`, no `SolInterface` impl. -/
def expandEventGroup (ms : List (Member P)) : Option (GroupOutput P) :=
  if 1 < ms.length then some (GroupOutput.enumOnly (generateEnum ms))
  else none

/-- The result of `expand` on a contract, restricted to the three optional
enum groups it may emit. -/
structure ExpandedContract (P : Type) where
  functionsEnum : Option (GroupOutput P)
  errorsEnum : Option (GroupOutput P)
  eventsEnum : Option (GroupOutput P)

/-- `expand(cx, contract)`: classify the body items, then build the three
groups, each only when its kind has more than one definition. -/
def expandContract (name : String) (body : List (Item P)) :
    ExpandedContract P :=
  ExpandedContract.mk
    (expandGroup (name ++ "Calls") (itemFunctions body))
    (expandGroup (name ++ "Errors") (itemErrors body))
    (expandEventGroup (itemEvents body))

theorem mem_selectors_iff (ms : List (Member P)) (s : List Nat) :
    s ∈ ms.map (fun m => m.selector) ↔ ∃ m ∈ ms, m.selector = s := by
  simp [List.mem_map]

/-- C2: `type_check(s)` succeeds iff `s` equals some member's selector, and
otherwise returns the unknown-selector error carrying the group's `NAME`
and the offending selector bytes. -/
theorem type_check_spec (name : String) (ms : List (Member P)) (s : List Nat) :
    (type_check name ms s = Except.ok () ↔ ∃ m ∈ ms, m.selector = s) ∧
    ((∀ m ∈ ms, m.selector ≠ s) →
      type_check name ms s = Except.error (SolError.unknownSelector name s)) := by
  constructor
  · constructor
    · intro hok
      by_contra hno
      have hnm : s ∉ ms.map (fun m => m.selector) := fun hc =>
        hno ((mem_selectors_iff ms s).mp hc)
      simp [type_check, hnm] at hok
    · intro hex
      have hm : s ∈ ms.map (fun m => m.selector) := (mem_selectors_iff ms s).mpr hex
      simp [type_check, hm]
  · intro hall
    have hnm : s ∉ ms.map (fun m => m.selector) := by
      intro hc
      obtain ⟨m, hm, he⟩ := (mem_selectors_iff ms s).mp hc
      exact hall m hm he
    simp [type_check, hnm]

theorem type_check_spec_witness :
    (type_check "TokenCalls" ([⟨[0xa9, 0x05, 0x9c, 0xbb], fun _ _ => Except.ok (1 : Nat), 64⟩] :
        List (Member Nat)) [0xde, 0xad, 0xbe, 0xef]
      = Except.error (SolError.unknownSelector "TokenCalls" [0xde, 0xad, 0xbe, 0xef])) ∧
    type_check "TokenCalls" ([⟨[0xa9, 0x05, 0x9c, 0xbb], fun _ _ => Except.ok (1 : Nat), 64⟩] :
        List (Member Nat)) [0xa9, 0x05, 0x9c, 0xbb] = Except.ok () :=
  ⟨(type_check_spec "TokenCalls" _ _).2 (by
      intro m hm
      rcases List.mem_singleton.mp hm with rfl
      decide),
   (type_check_spec "TokenCalls" _ _).1.mpr
      ⟨_, List.mem_singleton_self _, rfl⟩⟩

/-- C7: `From` wraps the payload in the given variant; `TryFrom` returns the
original payload when the variant matches and fails with the unchanged union
value otherwise, so `From` followed by `TryFrom` is the identity. -/
theorem variant_conversion_roundtrip (i j : Nat) (p : P) :
    is_variant i (fromPayload i p) = true ∧
    tryFromUnion i (fromPayload i p) = Except.ok p ∧
    (j ≠ i → tryFromUnion j (fromPayload i p) = Except.error (fromPayload i p)) := by
  refine ⟨by simp [is_variant, fromPayload], by simp [tryFromUnion, fromPayload], ?_⟩
  intro hj
  have : (fromPayload (P := P) i p).idx ≠ j := by
    simp [fromPayload]
    exact fun h => hj h.symm
  simp [tryFromUnion, this]

theorem variant_conversion_roundtrip_witness :
    is_variant 0 (fromPayload (P := Nat) 0 7) = true ∧
    tryFromUnion 0 (fromPayload (P := Nat) 0 7) = Except.ok 7 ∧
    tryFromUnion 1 (fromPayload (P := Nat) 0 7) = Except.error (fromPayload 0 7) :=
  ⟨(variant_conversion_roundtrip 0 1 7).1,
   (variant_conversion_roundtrip 0 1 7).2.1,
   (variant_conversion_roundtrip 0 1 7).2.2 (by decide)⟩

theorem countP_range_eq (v n : Nat) :
    (List.range n).countP (fun i => decide (v = i)) = if v < n then 1 else 0 := by
  induction n with
  | zero => simp
  | succ n ih =>
    rw [List.range_succ, List.countP_append, ih]
    by_cases h : v < n
    · have hne : v ≠ n := Nat.ne_of_lt h
      have h' : v < n + 1 := Nat.lt_succ_of_lt h
      simp [h, h', List.countP_cons, hne]
    · by_cases h2 : v = n
      · subst h2
        simp [h, Nat.lt_succ_self, List.countP_cons]
      · have h' : ¬ v < n + 1 := by omega
        simp [h, h', List.countP_cons, h2]

/-- C8: for a union value of variant `v` of an `N`-variant group, exactly one
of the `N` predicates is true; the matching accessors return the original
payload, and for every other variant the predicate is false, the reference
accessors return `none`, and the consuming accessor returns the original
union value unchanged. -/
theorem variant_methods_exhaustive (ms : List (Member P)) (v : Nat) (p : P)
    (hv : v < COUNT ms) :
    (List.range (COUNT ms)).countP
        (fun i => is_variant i (UnionVal.mk v p)) = 1 ∧
    is_variant v (UnionVal.mk v p) = true ∧
    as_variant v (UnionVal.mk v p) = some p ∧
    as_variant_mut v (UnionVal.mk v p) = some p ∧
    try_into_variant v (UnionVal.mk v p) = Except.ok p ∧
    (∀ w, w ≠ v →
      is_variant w (UnionVal.mk v p) = false ∧
      as_variant w (UnionVal.mk v p) = none ∧
      as_variant_mut w (UnionVal.mk v p) = none ∧
      try_into_variant w (UnionVal.mk v p) = Except.error (UnionVal.mk v p)) := by
  refine ⟨?_, by simp [is_variant], by simp [as_variant], by simp [as_variant_mut],
    by simp [try_into_variant], ?_⟩
  · have : (fun i => is_variant i (UnionVal.mk (P := P) v p))
        = fun i => decide (v = i) := by
      funext i
      simp [is_variant]
    rw [this, countP_range_eq, if_pos hv]
  · intro w hw
    have hne : v ≠ w := fun h => hw h.symm
    exact ⟨by simp [is_variant, hne], by simp [as_variant, hne],
      by simp [as_variant_mut, hne], by simp [try_into_variant, hne]⟩

/-- A sample call member: `transfer(address,uint256)`, selector `0xa9059cbb`,
whose payload decoder requires at least 64 bytes of data. -/
def transferCall : Member Nat :=
  Member.mk [0xa9, 0x05, 0x9c, 0xbb]
    (fun bytes _ =>
      if 64 ≤ bytes.length then Except.ok 1
      else Except.error (SolError.decodeError "data too short"))
    64

/-- A sample call member: `approve(address,uint256)`, selector `0x095ea7b3`. -/
def approveCall : Member Nat :=
  Member.mk [0x09, 0x5e, 0xa7, 0xb3]
    (fun bytes _ =>
      if 64 ≤ bytes.length then Except.ok 2
      else Except.error (SolError.decodeError "data too short"))
    64

/-- The sample `TokenCalls` group, members in declaration order. -/
def tokenCalls : List (Member Nat) :=
  [transferCall, approveCall]

theorem variant_methods_exhaustive_witness :
    (List.range (COUNT tokenCalls)).countP
        (fun i => is_variant i (UnionVal.mk 1 (5 : Nat))) = 1 ∧
    is_variant 1 (UnionVal.mk 1 (5 : Nat)) = true ∧
    as_variant 1 (UnionVal.mk 1 (5 : Nat)) = some 5 ∧
    as_variant_mut 1 (UnionVal.mk 1 (5 : Nat)) = some 5 ∧
    try_into_variant 1 (UnionVal.mk 1 (5 : Nat)) = Except.ok 5 ∧
    is_variant 0 (UnionVal.mk 1 (5 : Nat)) = false ∧
    as_variant 0 (UnionVal.mk 1 (5 : Nat)) = none ∧
    as_variant_mut 0 (UnionVal.mk 1 (5 : Nat)) = none ∧
    try_into_variant 0 (UnionVal.mk 1 (5 : Nat)) = Except.error (UnionVal.mk 1 5) := by
  have h := variant_methods_exhaustive tokenCalls 1 (5 : Nat) (by decide)
  have h0 := h.2.2.2.2.2 0 (by decide)
  exact ⟨h.1, h.2.1, h.2.2.1, h.2.2.2.1, h.2.2.2.2.1, h0.1, h0.2.1, h0.2.2.1, h0.2.2.2⟩

theorem decodeRawFrom_not_mem (name : String) (s bytes : List Nat)
    (validate : Bool) :
    ∀ (ms : List (Member P)) (i : Nat), (∀ m ∈ ms, m.selector ≠ s) →
      decodeRawFrom name s bytes validate i ms
        = Except.error (SolError.unknownSelector name s) := by
  intro ms
  induction ms with
  | nil => intro i _; rfl
  | cons m rest ih =>
    intro i h
    have hm : m.selector ≠ s := h m (List.mem_cons_self _ _)
    simp only [decodeRawFrom, if_neg hm]
    exact ih (i + 1) (fun m' hm' => h m' (List.mem_cons_of_mem _ hm'))

theorem decodeRawFrom_mem (name : String) (s bytes : List Nat)
    (validate : Bool) :
    ∀ (ms : List (Member P)) (i : Nat), (∃ m ∈ ms, m.selector = s) →
      ∃ j m, ms.get? j = some m ∧ m.selector = s ∧
        (∀ k m', k < j → ms.get? k = some m' → m'.selector ≠ s) ∧
        decodeRawFrom name s bytes validate i ms
          = (m.decodeRaw bytes validate).map (fun p => UnionVal.mk (i + j) p) := by
  intro ms
  induction ms with
  | nil =>
    intro i h
    simp at h
  | cons m rest ih =>
    intro i h
    by_cases hm : m.selector = s
    · refine ⟨0, m, rfl, hm, ?_, ?_⟩
      · intro k m' hk _
        omega
      · simp only [decodeRawFrom, if_pos hm, Nat.add_zero]
    · obtain ⟨m', hm', hs'⟩ := h
      rcases List.mem_cons.mp hm' with rfl | hmem
      · exact absurd hs' hm
      · obtain ⟨j, mm, hget, hsel, hfirst, heq⟩ := ih (i + 1) ⟨m', hmem, hs'⟩
        have harith : i + 1 + j = i + (j + 1) := by omega
        rw [harith] at heq
        refine ⟨j + 1, mm, by simpa using hget, hsel, ?_, ?_⟩
        · intro k mk hk hgetk
          cases k with
          | zero =>
            have hmk : m = mk := by simpa using hgetk
            rw [← hmk]
            exact hm
          | succ k' =>
            exact hfirst k' mk (by omega) (by simpa using hgetk)
        · simp only [decodeRawFrom, if_neg hm]
          exact heq

/-- C1: `decode_raw(s, bytes, validate)` delegates to the matching member's
payload decoder (passing `validate` through unchanged) and wraps the decoded
payload in the corresponding variant; if no member's selector equals `s`, it
returns the unknown-selector error carrying the group's `NAME` and `s`. -/
theorem decode_raw_dispatch_spec (name : String) (ms : List (Member P))
    (s bytes : List Nat) (validate : Bool) :
    ((∃ m ∈ ms, m.selector = s) →
      ∃ j m, ms.get? j = some m ∧ m.selector = s ∧
        decode_raw name ms s bytes validate
          = (m.decodeRaw bytes validate).map (fun p => UnionVal.mk j p)) ∧
    ((∀ m ∈ ms, m.selector ≠ s) →
      decode_raw name ms s bytes validate
        = Except.error (SolError.unknownSelector name s)) := by
  constructor
  · intro h
    obtain ⟨j, m, hget, hsel, _, heq⟩ := decodeRawFrom_mem name s bytes validate ms 0 h
    refine ⟨j, m, hget, hsel, ?_⟩
    simpa [decode_raw, Nat.zero_add] using heq
  · intro h
    exact decodeRawFrom_not_mem name s bytes validate ms 0 h

theorem decode_raw_dispatch_spec_witness :
    (∃ j m, tokenCalls.get? j = some m ∧
      m.selector = [0xa9, 0x05, 0x9c, 0xbb] ∧
      decode_raw "TokenCalls" tokenCalls [0xa9, 0x05, 0x9c, 0xbb]
          (List.replicate 64 0) true
        = (m.decodeRaw (List.replicate 64 0) true).map (fun p => UnionVal.mk j p)) ∧
    decode_raw "TokenCalls" tokenCalls [0xde, 0xad, 0xbe, 0xef]
        (List.replicate 64 0) true
      = Except.error (SolError.unknownSelector "TokenCalls" [0xde, 0xad, 0xbe, 0xef]) :=
  ⟨(decode_raw_dispatch_spec "TokenCalls" tokenCalls [0xa9, 0x05, 0x9c, 0xbb]
      (List.replicate 64 0) true).1 ⟨transferCall, List.mem_cons_self _ _, rfl⟩,
   (decode_raw_dispatch_spec "TokenCalls" tokenCalls [0xde, 0xad, 0xbe, 0xef]
      (List.replicate 64 0) true).2 (by
      intro m hm
      rcases List.mem_cons.mp hm with rfl | hm
      · decide
      · rcases List.mem_cons.mp hm with rfl | hm
        · decide
        · simp at hm)⟩

/-- C10: for a known selector, `decode_raw` fails exactly when the delegated
payload decoder fails, and in that case it returns the delegated decoder's
error unchanged, not an unknown-selector error. -/
theorem decode_raw_delegate_error_passthrough (name : String)
    (ms : List (Member P)) (s bytes : List Nat) (validate : Bool)
    (h : ∃ m ∈ ms, m.selector = s) :
    ∃ j m, ms.get? j = some m ∧ m.selector = s ∧
      (∀ e, m.decodeRaw bytes validate = Except.error e →
        decode_raw name ms s bytes validate = Except.error e) ∧
      ((∃ u, decode_raw name ms s bytes validate = Except.ok u) ↔
        ∃ p, m.decodeRaw bytes validate = Except.ok p) := by
  obtain ⟨j, m, hget, hsel, _, heq⟩ := decodeRawFrom_mem name s bytes validate ms 0 h
  have heq' : decode_raw name ms s bytes validate
      = (m.decodeRaw bytes validate).map (fun p => UnionVal.mk (0 + j) p) := heq
  refine ⟨j, m, hget, hsel, ?_, ?_⟩
  · intro e he
    rw [heq', he]
    rfl
  · constructor
    · rintro ⟨u, hu⟩
      rw [heq'] at hu
      cases hres : m.decodeRaw bytes validate with
      | error e =>
        rw [hres] at hu
        exact absurd hu (by simp [Except.map])
      | ok p => exact ⟨p, rfl⟩
    · rintro ⟨p, hp⟩
      rw [heq', hp]
      exact ⟨_, rfl⟩

theorem decode_raw_delegate_error_passthrough_witness :
    ∃ j m, tokenCalls.get? j = some m ∧
      m.selector = [0xa9, 0x05, 0x9c, 0xbb] ∧
      (∀ e, m.decodeRaw [] true = Except.error e →
        decode_raw "TokenCalls" tokenCalls [0xa9, 0x05, 0x9c, 0xbb] [] true
          = Except.error e) ∧
      ((∃ u, decode_raw "TokenCalls" tokenCalls [0xa9, 0x05, 0x9c, 0xbb] [] true
          = Except.ok u) ↔
        ∃ p, m.decodeRaw [] true = Except.ok p) :=
  decode_raw_delegate_error_passthrough "TokenCalls" tokenCalls
    [0xa9, 0x05, 0x9c, 0xbb] [] true ⟨transferCall, List.mem_cons_self _ _, rfl⟩

/-- Two error members sharing one selector: the expander sorts but never
deduplicates, so duplicate selectors survive into `SELECTORS`. -/
def dupMembers : List (Member Nat) :=
  [Member.mk [0, 0, 0, 1] (fun _ _ => Except.ok 1) 32,
   Member.mk [0, 0, 0, 1] (fun _ _ => Except.ok 2) 64]

/-- C3 counterexample: with two members sharing the selector `[0,0,0,1]`,
`SELECTORS` cannot be both strictly ascending and a permutation of the
members' selectors. -/
theorem selectors_strict_counterexample :
    ¬ (List.Sorted (· < ·) (SELECTORS dupMembers) ∧
       (SELECTORS dupMembers).Perm (dupMembers.map fun m => m.selector)) := by
  decide

/-- C3 (amended): `SELECTORS` is always a permutation of the members'
selectors sorted weakly ascending by byte-wise comparison; it is strictly
ascending whenever the members' selectors are pairwise distinct. -/
theorem selectors_sorted_perm (ms : List (Member P)) :
    (SELECTORS ms).Perm (ms.map fun m => m.selector) ∧
    List.Sorted (· ≤ ·) (SELECTORS ms) ∧
    ((ms.map fun m => m.selector).Nodup →
      List.Sorted (· < ·) (SELECTORS ms)) := by
  refine ⟨List.perm_insertionSort _ _, List.sorted_insertionSort _ _, ?_⟩
  intro hnd
  have hperm : (SELECTORS ms).Perm (ms.map fun m => m.selector) :=
    List.perm_insertionSort _ _
  have hnd' : (SELECTORS ms).Nodup := hperm.nodup_iff.mpr hnd
  have hs : List.Sorted (· ≤ ·) (SELECTORS ms) := List.sorted_insertionSort _ _
  exact (hs.and hnd').imp fun h => lt_of_le_of_ne h.1 h.2

theorem selectors_sorted_perm_witness :
    (SELECTORS tokenCalls).Perm (tokenCalls.map fun m => m.selector) ∧
    List.Sorted (· ≤ ·) (SELECTORS tokenCalls) ∧
    List.Sorted (· < ·) (SELECTORS tokenCalls) :=
  ⟨(selectors_sorted_perm tokenCalls).1,
   (selectors_sorted_perm tokenCalls).2.1,
   (selectors_sorted_perm tokenCalls).2.2 (by decide)⟩

theorem foldl_min_spec (as : List Nat) :
    ∀ a : Nat, (List.foldl min a as ∈ a :: as) ∧
      ∀ x ∈ a :: as, List.foldl min a as ≤ x := by
  induction as with
  | nil =>
    intro a
    refine ⟨List.mem_cons_self _ _, ?_⟩
    intro x hx
    rcases List.mem_cons.mp hx with rfl | hx'
    · exact Nat.le_refl _
    · simp at hx'
  | cons b bs ih =>
    intro a
    have h := ih (min a b)
    constructor
    · rcases List.mem_cons.mp h.1 with he | hmem'
      · rw [List.foldl_cons, he]
        rcases min_choice a b with h1 | h1 <;> rw [h1]
        · exact List.mem_cons_self _ _
        · exact List.mem_cons_of_mem _ (List.mem_cons_self _ _)
      · rw [List.foldl_cons]
        exact List.mem_cons_of_mem _ (List.mem_cons_of_mem _ hmem')
    · intro x hx
      rw [List.foldl_cons]
      have hle : List.foldl min (min a b) bs ≤ min a b :=
        h.2 (min a b) (List.mem_cons_self _ _)
      rcases List.mem_cons.mp hx with he | hx'
      · rw [he]
        exact le_trans hle (min_le_left a b)
      · rcases List.mem_cons.mp hx' with he | hx''
        · rw [he]
          exact le_trans hle (min_le_right a b)
        · exact h.2 x (List.mem_cons_of_mem _ hx'')

/-- C4: for a non-empty member list, `MIN_DATA_LENGTH` is the minimum over
all members of the statically computed minimum payload size: it is attained
by some member and is ≤ every member's minimum size. -/
theorem min_data_length_spec (ms : List (Member P)) (h : ms ≠ []) :
    ∃ v, MIN_DATA_LENGTH ms = some v ∧
      v ∈ ms.map (fun m => m.minSize) ∧
      ∀ m ∈ ms, v ≤ m.minSize := by
  cases ms with
  | nil => exact absurd rfl h
  | cons m rest =>
    have hf := foldl_min_spec (rest.map fun x => x.minSize) m.minSize
    refine ⟨List.foldl min m.minSize (rest.map fun x => x.minSize), ?_, ?_, ?_⟩
    · rfl
    · simpa using hf.1
    · intro m' hm'
      apply hf.2
      rcases List.mem_cons.mp hm' with rfl | hm''
      · exact List.mem_cons_self _ _
      · exact List.mem_cons_of_mem _ (List.mem_map_of_mem _ hm'')

theorem min_data_length_spec_witness :
    MIN_DATA_LENGTH tokenCalls = some 64 ∧
    ∃ v, MIN_DATA_LENGTH tokenCalls = some v ∧
      v ∈ tokenCalls.map (fun m => m.minSize) ∧
      ∀ m ∈ tokenCalls, v ≤ m.minSize :=
  ⟨rfl, min_data_length_spec tokenCalls (List.cons_ne_nil _ _)⟩

theorem length_SELECTORS (ms : List (Member P)) :
    (SELECTORS ms).length = COUNT ms := by
  simp [SELECTORS, COUNT, List.length_insertionSort]

/-- C6: `selector_at i` returns the `i`-th entry of the sorted `SELECTORS`
table when `i < COUNT`, and `none` (not an error) whenever `i ≥ COUNT`. -/
theorem selector_at_spec (ms : List (Member P)) (i : Nat) :
    (∀ _ : i < COUNT ms, ∃ hlen : i < (SELECTORS ms).length,
      selector_at ms i = some ((SELECTORS ms).get ⟨i, hlen⟩)) ∧
    (COUNT ms ≤ i → selector_at ms i = none) := by
  constructor
  · intro h
    have hlen : i < (SELECTORS ms).length := by
      rw [length_SELECTORS]
      exact h
    exact ⟨hlen, List.get?_eq_get hlen⟩
  · intro h
    have hlen : (SELECTORS ms).length ≤ i := by
      rw [length_SELECTORS]
      exact h
    exact List.get?_eq_none.mpr hlen

theorem selector_at_spec_witness :
    (∃ hlen : 0 < (SELECTORS tokenCalls).length,
      selector_at tokenCalls 0 = some ((SELECTORS tokenCalls).get ⟨0, hlen⟩)) ∧
    selector_at tokenCalls 2 = none :=
  ⟨(selector_at_spec tokenCalls 0).1 (by decide),
   (selector_at_spec tokenCalls 2).2 (by decide)⟩

theorem MIN_DATA_LENGTH_isSome (ms : List (Member P)) (h : ms ≠ []) :
    (MIN_DATA_LENGTH ms).isSome = true := by
  cases ms with
  | nil => exact absurd rfl h
  | cons m rest => rfl

theorem expandGroup_isSome_iff (name : String) (ms : List (Member P)) :
    (expandGroup name ms).isSome = true ↔ 1 < ms.length := by
  constructor
  · intro hs
    by_contra h
    simp [expandGroup, h] at hs
  · intro h
    cases ms with
    | nil => simp at h
    | cons m rest =>
      have hmin : MIN_DATA_LENGTH (m :: rest)
          = some (List.foldl min m.minSize (rest.map fun x => x.minSize)) := rfl
      simp [expandGroup, h, fromMembers, hmin]
      simp only [List.length_cons] at h
      omega

theorem expandEventGroup_isSome_iff (ms : List (Member P)) :
    (expandEventGroup ms).isSome = true ↔ 1 < ms.length := by
  by_cases h : 1 < ms.length <;> simp [expandEventGroup, h]

/-- C5: per kind, an interface group is generated iff the contract declares
strictly more than one definition of that kind. -/
theorem interface_group_threshold (name : String) (body : List (Item P)) :
    ((expandContract name body).functionsEnum.isSome = true ↔
      1 < (itemFunctions body).length) ∧
    ((expandContract name body).errorsEnum.isSome = true ↔
      1 < (itemErrors body).length) ∧
    ((expandContract name body).eventsEnum.isSome = true ↔
      1 < (itemEvents body).length) :=
  ⟨expandGroup_isSome_iff _ _, expandGroup_isSome_iff _ _,
   expandEventGroup_isSome_iff _⟩

/-- A sample event member with a 32-byte selector (topic hash). -/
def transferEvent : Member Nat :=
  Member.mk (List.replicate 31 0 ++ [1]) (fun _ _ => Except.ok 1) 64

/-- A second sample event member with a 32-byte selector. -/
def approveEvent : Member Nat :=
  Member.mk (List.replicate 31 0 ++ [2]) (fun _ _ => Except.ok 2) 32

/-- A sample contract body: two functions, no errors, two events, plus one
item of another kind. -/
def tokenBody : List (Item Nat) :=
  [Item.function transferCall, Item.function approveCall, Item.other,
   Item.event transferEvent, Item.event approveEvent]

theorem interface_group_threshold_witness :
    (expandContract "Token" tokenBody).functionsEnum.isSome = true ∧
    (expandContract "Token" tokenBody).errorsEnum.isSome = false ∧
    (expandContract "Token" tokenBody).eventsEnum.isSome = true := by
  refine ⟨(interface_group_threshold "Token" tokenBody).1.mpr (by decide), ?_,
    (interface_group_threshold "Token" tokenBody).2.2.mpr (by decide)⟩
  have h := (interface_group_threshold "Token" tokenBody).2.1
  have hf : ¬ (expandContract "Token" tokenBody).errorsEnum.isSome = true :=
    fun hc => absurd (h.mp hc) (by decide)
  exact Bool.eq_false_iff.mpr hf

/-- C9: the event group's generated output is only the union enum (with its
`SELECTORS` table); it carries no dispatch contract. -/
theorem events_enum_only (name : String) (body : List (Item P))
    (g : GroupOutput P)
    (h : (expandContract name body).eventsEnum = some g) :
    hasDispatch g = false ∧
    g = GroupOutput.enumOnly (generateEnum (itemEvents body)) := by
  have h' : expandEventGroup (itemEvents body) = some g := h
  unfold expandEventGroup at h'
  by_cases hc : 1 < (itemEvents body).length
  · rw [if_pos hc] at h'
    obtain rfl := (Option.some.inj h').symm
    exact ⟨rfl, rfl⟩
  · rw [if_neg hc] at h'
    exact absurd h' (by simp)

theorem events_enum_only_witness :
    hasDispatch (GroupOutput.enumOnly (generateEnum (itemEvents tokenBody))) = false ∧
    GroupOutput.enumOnly (generateEnum (itemEvents tokenBody))
      = GroupOutput.enumOnly (generateEnum (itemEvents tokenBody)) :=
  events_enum_only "Token" tokenBody _ rfl

end ContractExpand
